import Mathlib

/-!
Shallow embedding of the `rustg` graph library (src/src/graph.rs and
src/src/algo.rs) and verification of its specification claims.

Rust `HashMap`/`HashSet` state is modelled by association lists kept in
insertion order; iteration over a hash container is modelled as iteration
over that list.  Rust `f64` distances (finite weights plus `INFINITY`)
are modelled by the type `D` below with exact rational weights.  Loops of
the source (`while`, `loop`) are modelled by fuel recursion where the fuel
handed over by the wrapper is large enough to cover every terminating
execution of the source.  Lookups that would abort at runtime in Rust
(indexing a missing key, `unwrap` of `None`) are modelled by total lookups
with a default; the verified statements restrict to well-formed graphs
(predicate `Wf`), where those defaults are never exercised.
-/

namespace RustG

/-! ### Association-list model of HashMap -/

/-- `HashMap::contains_key`. -/
def mapContains (m : List (String × α)) (k : String) : Bool :=
  m.any (fun p => p.1 == k)

/-- `HashMap::get` / indexing, returning the first binding of `k`. -/
def mapFind? (m : List (String × α)) (k : String) : Option α :=
  match m with
  | [] => none
  | (k1, v) :: rest => if k1 = k then some v else mapFind? rest k

/-- Total lookup with a default value (models Rust indexing, which cannot
miss on the executions we verify). -/
def mapGetD (m : List (String × α)) (k : String) (d : α) : α :=
  match mapFind? m k with
  | some v => v
  | none => d

/-- `HashMap::insert`: replaces the first binding of `k`, or appends. -/
def mapInsert (m : List (String × α)) (k : String) (v : α) : List (String × α) :=
  match m with
  | [] => [(k, v)]
  | (k1, v1) :: rest =>
      if k1 = k then (k, v) :: rest else (k1, v1) :: mapInsert rest k v

/-! ### Data model (graph.rs) -/

/-- Exact model of the `f64` values the library computes with: a fraction
`num / den` (denominator positive for every value the library builds, and
not necessarily reduced).  The only `f64` operations the code performs —
addition and strict comparison — are implemented exactly. -/
structure F where
  num : Int
  den : Int
deriving DecidableEq, Repr

instance : OfNat F n :=
  ⟨{ num := n, den := 1 }⟩

/-- Exact `f64` addition. -/
def F.add (a b : F) : F :=
  { num := a.num * b.den + b.num * a.den, den := a.den * b.den }

/-- Exact strict `f64` comparison (for positive denominators). -/
def F.blt (a b : F) : Bool :=
  a.num * b.den < b.num * a.den

/-- `Node { id, name }`. -/
structure Node where
  id : String
  name : String
deriving DecidableEq, Repr

/-- `Link { source, target, label, weight }`. -/
structure Link where
  source : String
  target : String
  label : String
  weight : F
deriving DecidableEq, Repr

/-- `make_link_key`: `format!("{}_{}", source, target)`. -/
def make_link_key (source target : String) : String :=
  source ++ "_" ++ target

/-- `Graph { nodes, nodes_map, links, directed, weighted }`. -/
structure Graph where
  nodes : List Node
  nodes_map : List (String × Nat)
  links : List (String × Link)
  directed : Bool
  weighted : Bool
deriving DecidableEq, Repr

/-- `Graph::new`. -/
def Graph.new : Graph :=
  { nodes := [], nodes_map := [], links := [], directed := true, weighted := false }

/-- The `format!` message of a rejected duplicate node. -/
def dup_node_msg (id : String) : String :=
  "[WARN] node" ++ id ++ " is already existed, skipping"

/-- The `format!` message of a rejected duplicate link. -/
def dup_link_msg (s t : String) : String :=
  "[WARN] link " ++ s ++ " to " ++ t ++ " is already existed, skipping"

/-- `Graph::add_node`; the returned graph is the final state of `&mut self`. -/
def Graph.add_node (g : Graph) (n : Node) : Except String Bool × Graph :=
  if mapContains g.nodes_map n.id then
    (Except.error (dup_node_msg n.id), g)
  else
    (Except.ok true,
      { g with
        nodes_map := mapInsert g.nodes_map n.id g.nodes.length
        nodes := g.nodes ++ [n] })

/-- `Graph::add_link`; the two `add_node` calls with `?` propagation are kept,
including their (unreachable) error branches. -/
def Graph.add_link (g : Graph) (l : Link) : Except String Bool × Graph :=
  let s1 :=
    if mapContains g.nodes_map l.source then (Except.ok true, g)
    else g.add_node { id := l.source, name := "" }
  match s1 with
  | (Except.error e, g1) => (Except.error e, g1)
  | (_, g1) =>
    let s2 :=
      if mapContains g1.nodes_map l.target then (Except.ok true, g1)
      else g1.add_node { id := l.target, name := "" }
    match s2 with
    | (Except.error e, g2) => (Except.error e, g2)
    | (_, g2) =>
      let key := make_link_key l.source l.target
      if mapContains g2.links key then
        (Except.error (dup_link_msg l.source l.target), g2)
      else
        (Except.ok true, { g2 with links := mapInsert g2.links key l })

/-- `rows[i][j] = true` on a `Vec<Vec<bool>>`. -/
def setEntry (rows : List (List Bool)) (i j : Nat) : List (List Bool) :=
  rows.set i ((rows.getD i []).set j true)

/-- `Graph::to_matrix`: fold over the stored links. -/
def Graph.to_matrix (g : Graph) : List (List Bool) :=
  g.links.foldl
    (fun rows p =>
      let rows1 := setEntry rows (mapGetD g.nodes_map p.2.source 0)
        (mapGetD g.nodes_map p.2.target 0)
      if !g.directed then
        setEntry rows1 (mapGetD g.nodes_map p.2.target 0)
          (mapGetD g.nodes_map p.2.source 0)
      else rows1)
    (List.replicate g.nodes.length (List.replicate g.nodes.length false))

/-- `Graph::direct_connected`: scan one matrix row. -/
def Graph.direct_connected (g : Graph) (source_id : String) : List Node :=
  if !(mapContains g.nodes_map source_id) then []
  else
    let m := g.to_matrix
    let source_idx := mapGetD g.nodes_map source_id 0
    (m.getD source_idx []).enum.filterMap
      (fun p => if p.2 then some (g.nodes.getD p.1 { id := "", name := "" }) else none)

/-- `Graph::get_node`. -/
def Graph.get_node (g : Graph) (id : String) : Option Node :=
  if mapContains g.nodes_map id then
    some (g.nodes.getD (mapGetD g.nodes_map id 0) { id := "", name := "" })
  else none

/-- `Graph::get_link`. -/
def Graph.get_link (g : Graph) (source target : String) : Option Link :=
  let key := make_link_key source target
  if mapContains g.links key then mapFind? g.links key else none

/-! ### connected_components (graph.rs lines 156-201)

The openset `HashSet<Node>` is modelled by a list in node-storage order,
`iter().next()` by its head.  The inner `loop` strictly shrinks the openset
whenever it continues, so fuel `|openset| + 1` covers every execution; the
outer `loop` removes at least one node per round, so fuel `|nodes| + 1`
covers every execution. -/

/-- The inner `loop` of `connected_components`: repeatedly absorb the
direct neighbors of the (fixed) seed that are still open.  Returns the
accumulated component and the remaining openset. -/
def ccInner (g1 : Graph) (startId : String) :
    Nat → List Node → List Node → List Node × List Node
  | 0, openset, acc => (acc, openset)
  | fuel + 1, openset, acc =>
    let dcn := (g1.direct_connected startId).filter (fun n => openset.contains n)
    if dcn.length > 0 then
      ccInner g1 startId fuel (dcn.foldl (fun os n => os.erase n) openset) (acc ++ dcn)
    else
      (acc, openset)

/-- The outer `loop` of `connected_components`. -/
def ccOuter (g1 : Graph) :
    Nat → Node → List Node → List (List Node) → List (List Node)
  | 0, _, _, components => components
  | fuel + 1, start_node, openset, components =>
    let openset1 := openset.erase start_node
    let r := ccInner g1 start_node.id (openset1.length + 1) openset1 [start_node]
    let components1 := components ++ [r.1]
    match r.2 with
    | [] => components1
    | n :: _ => ccOuter g1 fuel n r.2 components1

/-- `Graph::connected_components`; the second component of the result is the
final state of `&mut self` (the `directed` flag is flipped and restored). -/
def Graph.connected_components (g : Graph) : List (List Node) × Graph :=
  let cur_directed := g.directed
  let g1 : Graph := { g with directed := false }
  let gout : Graph := { g1 with directed := cur_directed }
  if g1.nodes.length = 0 then ([], gout)
  else
    (ccOuter g1 (g1.nodes.length + 1) (g1.nodes.getD 0 { id := "", name := "" })
      g1.nodes [], gout)

/-! ### Dijkstra (algo.rs) -/

/-- `f64` distances as used by `dijkstra_shortest`: either a finite exact
value or `INFINITY`. -/
inductive D where
  | fin : F → D
  | inf : D
deriving DecidableEq, Repr

/-- `d + w` for a finite `f64` weight `w` (`INFINITY + w = INFINITY`). -/
def D.addF : D → F → D
  | D.fin a, w => D.fin (F.add a w)
  | D.inf, _ => D.inf

/-- Strict `f64` comparison (`INFINITY < INFINITY` is false). -/
def D.lt : D → D → Bool
  | D.fin a, D.fin b => F.blt a b
  | D.fin _, D.inf => true
  | D.inf, _ => false

/-- `min_dist_node` (algo.rs lines 9-21): fold over the queue starting from
the empty string; `current_min_dist` is the accumulator's stored distance
when `dist` has an entry for it and `INFINITY` otherwise — exactly
`mapGetD dist min_node D.inf`. -/
def min_dist_node (queue : List Node) (dist : List (String × D)) : String :=
  queue.foldl
    (fun min_node node =>
      if D.lt (mapGetD dist node.id D.inf) (mapGetD dist min_node D.inf) then node.id
      else min_node)
    ""

/-- The traversal cost of the edge from `min_node` to `n`: the stored
weight when `weighted`, else `1.0`.  This is a total variant: the Rust code
unwraps the lookup, and that unwrap can abort on weighted graphs when a
mirrored (undirected-view) edge has no stored link in this direction.  The
abort is modelled faithfully by `relaxWeight?` below; this total variant
backs only statements whose executions never consult it (unweighted graphs,
or runs that perform no relaxation at all). -/
def relaxWeight (g : Graph) (min_node : String) (n : Node) : F :=
  if g.weighted then
    match g.get_link min_node n.id with
    | some l => l.weight
    | none => 0
  else 1

/-- One relaxation of the neighbor `n` of `min_node` (the body of the
`for_each` of algo.rs lines 58-72): if `n` is still in the queue and
`dist[min_node] + w` improves on `dist[n]`, update `dist` and `prev`. -/
def relaxStep (g : Graph) (min_node : String) (queue : List Node)
    (dp : List (String × D) × List (String × String)) (n : Node) :
    List (String × D) × List (String × String) :=
  if queue.contains n then
    if D.lt ((mapGetD dp.1 min_node D.inf).addF (relaxWeight g min_node n))
        (mapGetD dp.1 n.id D.inf) then
      (mapInsert dp.1 n.id ((mapGetD dp.1 min_node D.inf).addF (relaxWeight g min_node n)),
       mapInsert dp.2 n.id min_node)
    else dp
  else dp

/-- One relaxation pass over the direct neighbors of `min_node`
(the `for_each` of algo.rs lines 58-72). -/
def relaxAll (g : Graph) (min_node : String) (queue : List Node)
    (dp : List (String × D) × List (String × String)) :
    List (String × D) × List (String × String) :=
  (g.direct_connected min_node).foldl (relaxStep g min_node queue) dp

/-- The `while queue.len() > 0` loop of `dijkstra_shortest`, as a total
fuel recursion (the wrapper passes `|queue| + 1` fuel; a round that selects
a node still in the queue removes it, so runs that break within that many
rounds — in particular every run the total-model statements quantify over —
are reproduced exactly).  `dijkstraLoop?` below additionally models the
abort of the weighted-edge unwrap and distinguishes fuel exhaustion. -/
def dijkstraLoop (g : Graph) (endId : String) :
    Nat → List Node → List (String × D) → List (String × String) →
      List (String × D) × List (String × String)
  | 0, _, dist, prev => (dist, prev)
  | fuel + 1, queue, dist, prev =>
    if queue.length > 0 then
      let min_node := min_dist_node queue dist
      if min_node = endId then (dist, prev)
      else
        match g.get_node min_node with
        | none => (dist, prev)
        | some n =>
          let queue1 := queue.erase n
          let dp := relaxAll g min_node queue1 (dist, prev)
          dijkstraLoop g endId fuel queue1 dp.1 dp.2
    else (dist, prev)

/-- The path-reconstruction `loop` of `dijkstra_shortest` (walk the `prev`
map backward from `end`); `result.insert(0, ..)` prepends. -/
def buildPath (g : Graph) (start : String) (prev : List (String × String)) :
    Nat → String → List Node → List Node
  | 0, _, result => result
  | fuel + 1, c, result =>
    if !(mapContains prev c) && !(c == start) then result
    else
      let result1 :=
        (match g.get_node c with
         | some n => [n]
         | none => []) ++ result
      match mapFind? prev c with
      | some p => if c = start then result1 else buildPath g start prev fuel p result1
      | none => result1

/-- `dijkstra_shortest` (algo.rs lines 23-97). -/
def dijkstra_shortest (g : Graph) (start endId : String) : List Node :=
  if !(mapContains g.nodes_map start) || !(mapContains g.nodes_map endId) then []
  else
    let queue := g.nodes
    let dist := g.nodes.map (fun n => (n.id, if n.id = start then D.fin 0 else D.inf))
    let dp := dijkstraLoop g endId (g.nodes.length + 1) queue dist []
    buildPath g start dp.2 (g.nodes.length + 1) endId []

/-! ### Abort-aware model of dijkstra_shortest

The Rust function has two `unwrap`s (the weighted-edge lookup at
algo.rs:62 and the node lookup of the walkback at algo.rs:85) which abort
the process when the lookup misses, and its loops need not terminate on
pathological inputs.  The `?`-variants below return `none` exactly for the
executions that abort or exhaust the fuel (the fuel handed over by the
wrapper covers every run that breaks within `|nodes| + 1` rounds, and a
`while` run needs a round that removes nothing — hence one that cannot
break on its own — to exceed that bound).  A `some` result is therefore a
value the Rust call actually returns. -/

/-- `relaxWeight`, with the `unwrap` of `get_link` (algo.rs:62) modelled as
an abort (`none`) when the lookup misses. -/
def relaxWeight? (g : Graph) (min_node : String) (n : Node) : Option F :=
  if g.weighted then
    match g.get_link min_node n.id with
    | some l => some l.weight
    | none => none
  else some 1

/-- `relaxStep`, propagating the abort of the weight lookup. -/
def relaxStep? (g : Graph) (min_node : String) (queue : List Node)
    (dp : List (String × D) × List (String × String)) (n : Node) :
    Option (List (String × D) × List (String × String)) :=
  if queue.contains n then
    match relaxWeight? g min_node n with
    | none => none
    | some w =>
      if D.lt ((mapGetD dp.1 min_node D.inf).addF w) (mapGetD dp.1 n.id D.inf) then
        some (mapInsert dp.1 n.id ((mapGetD dp.1 min_node D.inf).addF w),
          mapInsert dp.2 n.id min_node)
      else some dp
  else some dp

/-- The relaxation `for_each`, aborting at the first aborting step. -/
def relaxFold? (g : Graph) (min_node : String) (queue : List Node) :
    List Node → List (String × D) × List (String × String) →
      Option (List (String × D) × List (String × String))
  | [], dp => some dp
  | n :: t, dp =>
    match relaxStep? g min_node queue dp n with
    | none => none
    | some dp2 => relaxFold? g min_node queue t dp2

/-- One abort-aware relaxation pass over the direct neighbors of
`min_node`. -/
def relaxAll? (g : Graph) (min_node : String) (queue : List Node)
    (dp : List (String × D) × List (String × String)) :
    Option (List (String × D) × List (String × String)) :=
  relaxFold? g min_node queue (g.direct_connected min_node) dp

/-- The `while` loop of `dijkstra_shortest`, abort-aware: `none` on fuel
exhaustion (a run the source does not complete within the wrapper's fuel)
and on an aborting relaxation. -/
def dijkstraLoop? (g : Graph) (endId : String) :
    Nat → List Node → List (String × D) → List (String × String) →
      Option (List (String × D) × List (String × String))
  | 0, _, _, _ => none
  | fuel + 1, queue, dist, prev =>
    if queue.length > 0 then
      if min_dist_node queue dist = endId then some (dist, prev)
      else
        match g.get_node (min_dist_node queue dist) with
        | none => some (dist, prev)
        | some n =>
          match relaxAll? g (min_dist_node queue dist) (queue.erase n) (dist, prev) with
          | none => none
          | some dp => dijkstraLoop? g endId fuel (queue.erase n) dp.1 dp.2
    else some (dist, prev)

/-- The walkback `loop`, abort-aware: the `unwrap` of `get_node`
(algo.rs:85) becomes `none` when the lookup misses, and fuel exhaustion
(a cyclic `prev` chain, which the source walks forever) becomes `none`. -/
def buildPath? (g : Graph) (start : String) (prev : List (String × String)) :
    Nat → String → List Node → Option (List Node)
  | 0, _, _ => none
  | fuel + 1, c, result =>
    if !(mapContains prev c) && !(c == start) then some result
    else
      match g.get_node c with
      | none => none
      | some n =>
        match mapFind? prev c with
        | some p =>
            if c = start then some ([n] ++ result)
            else buildPath? g start prev fuel p ([n] ++ result)
        | none => some ([n] ++ result)

/-- Abort-aware `dijkstra_shortest`: `some l` exactly when the Rust call
returns (within the covered rounds) with the path `l`; `none` when it
aborts on an `unwrap` or does not terminate. -/
def dijkstra_shortest? (g : Graph) (start endId : String) : Option (List Node) :=
  if !(mapContains g.nodes_map start) || !(mapContains g.nodes_map endId) then some []
  else
    match dijkstraLoop? g endId (g.nodes.length + 1) g.nodes
        (g.nodes.map fun n => (n.id, if n.id = start then D.fin 0 else D.inf)) [] with
    | none => none
    | some dp => buildPath? g start dp.2 (g.nodes.length + 1) endId []

/-! ### Well-formedness and reachability -/

/-- The node stored at position `i`. -/
def nodeAt (g : Graph) (i : Nat) : Node :=
  g.nodes.getD i { id := "", name := "" }

/-- The graph invariants maintained by `add_node`/`add_link`: distinct node
ids, `nodes_map` is exactly the position index, every stored link has both
endpoints indexed and is stored under its underscore-joined key, and the
stored link keys are distinct. -/
def Wf (g : Graph) : Prop :=
  ((g.nodes.map Node.id).Nodup) ∧
  (∀ i ∈ List.range g.nodes.length, mapFind? g.nodes_map (nodeAt g i).id = some i) ∧
  (∀ p ∈ g.nodes_map, p.2 < g.nodes.length ∧ (nodeAt g p.2).id = p.1) ∧
  (∀ p ∈ g.links,
    mapContains g.nodes_map p.2.source = true ∧
    mapContains g.nodes_map p.2.target = true ∧
    p.1 = make_link_key p.2.source p.2.target) ∧
  ((g.links.map Prod.fst).Nodup)

instance (g : Graph) : Decidable (Wf g) := by
  unfold Wf; infer_instance

/-- One step of the adjacency view used by the algorithms: `y` is a direct
neighbor of `x` (respecting the graph's `directed` flag). -/
def GEdge (g : Graph) (x y : String) : Prop :=
  ∃ n ∈ g.direct_connected x, n.id = y

/-- Reachability along the graph's adjacency view. -/
def Reach (g : Graph) (a b : String) : Prop :=
  Relation.ReflTransGen (GEdge g) a b

/-- Invariant of the Dijkstra loop state: every id with a finite recorded
distance, and every id with a predecessor entry, is reachable from `start`
along the adjacency view. -/
def ReachInv (g : Graph) (start : String) (dist : List (String × D))
    (prev : List (String × String)) : Prop :=
  (∀ k q, mapFind? dist k = some (D.fin q) → Reach g start k) ∧
  (∀ k p, mapFind? prev k = some p → Reach g start k)

/-- One stored link followed from source to target (link direction,
ignoring the `directed` flag). -/
def LEdge (g : Graph) (x y : String) : Prop :=
  ∃ p ∈ g.links, p.2.source = x ∧ p.2.target = y

/-- Reachability along stored links followed source-to-target: a directed
path of links. -/
def LReach (g : Graph) (a b : String) : Prop :=
  Relation.ReflTransGen (LEdge g) a b

/-- A mutating API call. -/
inductive Op where
  | insertNode : Node → Op
  | insertLink : Link → Op

/-- Apply one API call to the graph state. -/
def applyOp (g : Graph) (op : Op) : Graph :=
  match op with
  | Op.insertNode n => (g.add_node n).2
  | Op.insertLink l => (g.add_link l).2

/-- The graph after the endpoint auto-insert step of `add_link`: derived
form of the two guarded `add_node` calls (they never fail, see
`add_link_eq`). -/
def ensureNode (g : Graph) (id : String) : Graph :=
  if mapContains g.nodes_map id then g
  else
    { g with
      nodes_map := mapInsert g.nodes_map id g.nodes.length
      nodes := g.nodes ++ [{ id := id, name := "" }] }

/-- The `(i, j)` entry of an adjacency matrix (out-of-range reads are
`false`). -/
def entry (m : List (List Bool)) (i j : Nat) : Bool :=
  (m.getD i []).getD j false

/-- Boolean symmetry of an adjacency matrix. -/
def matSymmB (m : List (List Bool)) : Bool :=
  (List.range m.length).all (fun i =>
    (List.range m.length).all (fun j =>
      entry m i j == entry m j i))

/-! ### Concrete example inputs -/

/-- An unweighted, unlabelled link. -/
def exLink (s t : String) : Link :=
  { source := s, target := t, label := "", weight := 1 }

/-- The C2 scenario graph: nodes a, b, c, d and links a→b, b→c, c→d, a→c. -/
def exGraphDiamond : Graph :=
  (((((((Graph.new.add_node ⟨"a", "a"⟩).2.add_node ⟨"b", "b"⟩).2.add_node
    ⟨"c", "c"⟩).2.add_node ⟨"d", "d"⟩).2.add_link (exLink "a" "b")).2.add_link
    (exLink "b" "c")).2.add_link (exLink "c" "d")).2.add_link (exLink "a" "c") |>.2

/-- The C2 scenario graph after additionally inserting a→d. -/
def exGraphDiamond2 : Graph :=
  (exGraphDiamond.add_link (exLink "a" "d")).2

/-- The path graph a→b, b→c (nodes auto-created). -/
def exGraphPath : Graph :=
  ((Graph.new.add_link (exLink "a" "b")).2.add_link (exLink "b" "c")).2

/-- An undirected graph whose only stored link is b→a. -/
def exGraphRev : Graph :=
  { (Graph.new.add_link (exLink "b" "a")).2 with directed := false }

/-- A directed graph with the two stored links a→b and b→a. -/
def exGraphCycle : Graph :=
  ((Graph.new.add_link (exLink "a" "b")).2.add_link (exLink "b" "a")).2

/-- An undirected graph with the single stored link a→b. -/
def exGraphUndirPair : Graph :=
  { (Graph.new.add_link (exLink "a" "b")).2 with directed := false }

/-- A graph holding the single node `a` (name `A`). -/
def exGraphOne : Graph :=
  (Graph.new.add_node ⟨"a", "A"⟩).2

/-- A graph holding the two isolated nodes `a` and `b`. -/
def exGraphIso : Graph :=
  ((Graph.new.add_node ⟨"a", "a"⟩).2.add_node ⟨"b", "b"⟩).2

/-! ### Association-list lemmas -/

theorem mapFind?_mapInsert (m : List (String × α)) (k : String) (v : α) (k2 : String) :
    mapFind? (mapInsert m k v) k2 = if k2 = k then some v else mapFind? m k2 := by
  induction m with
  | nil =>
      by_cases h : k2 = k
      · subst h; simp [mapInsert, mapFind?]
      · simp [mapInsert, mapFind?, h, Ne.symm h]
  | cons p rest ih =>
      obtain ⟨k1, v1⟩ := p
      by_cases h1 : k1 = k
      · subst h1
        by_cases h2 : k2 = k1
        · subst h2; simp [mapInsert, mapFind?]
        · simp [mapInsert, mapFind?, h2, Ne.symm h2]
      · by_cases h2 : k1 = k2
        · subst h2
          simp [mapInsert, mapFind?, h1]
        · simp [mapInsert, mapFind?, h1, h2, ih]

theorem mapContains_iff (m : List (String × α)) (k : String) :
    mapContains m k = true ↔ ∃ v, mapFind? m k = some v := by
  induction m with
  | nil => simp [mapContains, mapFind?]
  | cons p rest ih =>
      obtain ⟨k1, v1⟩ := p
      by_cases h : k1 = k
      · subst h
        simp [mapContains, mapFind?]
      · have h2 : mapContains ((k1, v1) :: rest) k = mapContains rest k := by
          simp [mapContains, h]
        rw [h2, ih]
        simp [mapFind?, h]

theorem mapContains_false_iff (m : List (String × α)) (k : String) :
    mapContains m k = false ↔ mapFind? m k = none := by
  rw [← Bool.not_eq_true, mapContains_iff]
  cases h : mapFind? m k <;> simp [h]

theorem mapInsert_eq_append (m : List (String × α)) (k : String) (v : α)
    (h : mapContains m k = false) : mapInsert m k v = m ++ [(k, v)] := by
  induction m with
  | nil => simp [mapInsert]
  | cons p rest ih =>
      obtain ⟨k1, v1⟩ := p
      simp only [mapContains, List.any_cons, Bool.or_eq_false_iff] at h
      have h1 : ¬ k1 = k := by simpa using h.1
      rw [mapInsert, if_neg h1, List.cons_append]
      congr 1
      exact ih (show mapContains rest k = false from h.2)

theorem mem_of_mapFind? {m : List (String × α)} {k : String} {v : α}
    (h : mapFind? m k = some v) : (k, v) ∈ m := by
  induction m with
  | nil => simp [mapFind?] at h
  | cons p rest ih =>
      obtain ⟨k1, v1⟩ := p
      by_cases h1 : k1 = k
      · subst h1
        simp [mapFind?] at h
        simp [h]
      · simp [mapFind?, h1] at h
        exact List.mem_cons_of_mem _ (ih h)

theorem mapFind?_append (m1 m2 : List (String × α)) (k : String) :
    mapFind? (m1 ++ m2) k =
      match mapFind? m1 k with
      | some v => some v
      | none => mapFind? m2 k := by
  induction m1 with
  | nil => simp [mapFind?]
  | cons p rest ih =>
      obtain ⟨k1, v1⟩ := p
      by_cases h : k1 = k <;> simp [mapFind?, h, ih]

theorem mapContains_append (m1 m2 : List (String × α)) (k : String) :
    mapContains (m1 ++ m2) k = (mapContains m1 k || mapContains m2 k) := by
  simp [mapContains]

theorem mapContains_mapInsert (m : List (String × α)) (k : String) (v : α) (k2 : String) :
    mapContains (mapInsert m k v) k2 = if k2 = k then true else mapContains m k2 := by
  by_cases h : k2 = k
  · subst h
    rw [if_pos rfl]
    exact (mapContains_iff _ _).mpr ⟨v, by rw [mapFind?_mapInsert]; exact if_pos rfl⟩
  · rw [if_neg h]
    cases hc : mapContains m k2 with
    | false =>
        rw [mapContains_false_iff] at hc ⊢
        rw [mapFind?_mapInsert, if_neg h]
        exact hc
    | true =>
        obtain ⟨w, hw⟩ := (mapContains_iff _ _).mp hc
        exact (mapContains_iff _ _).mpr ⟨w, by rw [mapFind?_mapInsert, if_neg h]; exact hw⟩

/-! ### add_node / add_link normal forms -/

theorem add_node_of_not_contains (g : Graph) (n : Node)
    (h : mapContains g.nodes_map n.id = false) :
    g.add_node n =
      (Except.ok true,
        { g with
          nodes_map := mapInsert g.nodes_map n.id g.nodes.length
          nodes := g.nodes ++ [n] }) := by
  simp [Graph.add_node, h]

theorem ensureNode_links (g : Graph) (id : String) :
    (ensureNode g id).links = g.links := by
  unfold ensureNode
  split <;> rfl

theorem ensureNode_directed (g : Graph) (id : String) :
    (ensureNode g id).directed = g.directed := by
  unfold ensureNode
  split <;> rfl

theorem ensureNode_contains_self (g : Graph) (id : String) :
    mapContains (ensureNode g id).nodes_map id = true := by
  unfold ensureNode
  by_cases h : mapContains g.nodes_map id
  · simp [h]
  · simp [h, mapContains_mapInsert]

theorem ensureNode_contains_mono (g : Graph) (id k : String)
    (h : mapContains g.nodes_map k = true) :
    mapContains (ensureNode g id).nodes_map k = true := by
  unfold ensureNode
  by_cases h1 : mapContains g.nodes_map id
  · simpa [h1] using h
  · by_cases h2 : k = id <;> simp [h1, mapContains_mapInsert, h2, h]

theorem add_link_eq (g : Graph) (l : Link) :
    g.add_link l =
      if mapContains (ensureNode (ensureNode g l.source) l.target).links
          (make_link_key l.source l.target) then
        (Except.error (dup_link_msg l.source l.target),
         ensureNode (ensureNode g l.source) l.target)
      else
        (Except.ok true,
         { ensureNode (ensureNode g l.source) l.target with
           links := mapInsert (ensureNode (ensureNode g l.source) l.target).links
             (make_link_key l.source l.target) l }) := by
  by_cases h1 : mapContains g.nodes_map l.source
  · by_cases h2 : mapContains g.nodes_map l.target
    · simp [Graph.add_link, ensureNode, h1, h2]
    · simp [Graph.add_link, ensureNode, Graph.add_node, h1, h2]
  · by_cases h2 : mapContains (mapInsert g.nodes_map l.source g.nodes.length) l.target
    · simp [Graph.add_link, ensureNode, Graph.add_node, h1, h2]
    · simp [Graph.add_link, ensureNode, Graph.add_node, h1, h2]

/-! ### Claim theorems -/

/-- C2: on the graph with nodes a,b,c,d and unweighted links a→b, b→c, c→d,
a→c, `shortest_path(G,a,d)` returns [a,c,d]; after inserting a→d it
returns [a,d]. -/
theorem C2_shortest_path_scenario :
    dijkstra_shortest exGraphDiamond "a" "d" =
      [⟨"a", "a"⟩, ⟨"c", "c"⟩, ⟨"d", "d"⟩] ∧
    dijkstra_shortest exGraphDiamond2 "a" "d" = [⟨"a", "a"⟩, ⟨"d", "d"⟩] :=
  ⟨by decide, by decide⟩

/-- C10: link keys are the underscore-joined id pair, so distinct ordered
pairs can collide: after inserting a link from `a` to `b_c`,
`get_link("a_b","c")` returns that stored link (whose endpoint fields
differ from the queried pair) and inserting a link from `a_b` to `c`
fails as a duplicate. -/
theorem C10_link_key_collision :
    (Graph.new.add_link ⟨"a", "b_c", "x", 1⟩).1 = Except.ok true ∧
    (Graph.new.add_link ⟨"a", "b_c", "x", 1⟩).2.get_link "a_b" "c" =
      some ⟨"a", "b_c", "x", 1⟩ ∧
    ((Graph.new.add_link ⟨"a", "b_c", "x", 1⟩).2.add_link ⟨"a_b", "c", "y", 1⟩).1 =
      Except.error (dup_link_msg "a_b" "c") :=
  ⟨rfl, rfl, rfl⟩

/-- C1 (code bug): on the path graph a→b, b→c the nodes `a` and `c` are
joined by an undirected path, yet `connected_components` separates them:
the inner loop only ever absorbs direct neighbors of the seed node, so the
call returns the components [a,b] and [c]. -/
theorem C1_connected_components_bug :
    (exGraphPath.connected_components).1 =
      [[⟨"a", ""⟩, ⟨"b", ""⟩], [⟨"c", ""⟩]] ∧
    Reach { exGraphPath with directed := false } "a" "c" ∧
    (exGraphPath.connected_components).1.all
      (fun comp => !(comp.contains (⟨"a", ""⟩ : Node) &&
        comp.contains (⟨"c", ""⟩ : Node))) = true := by
  refine ⟨by decide, ?_, by decide⟩
  have e1 : GEdge { exGraphPath with directed := false } "a" "b" :=
    ⟨⟨"b", ""⟩, by decide, rfl⟩
  have e2 : GEdge { exGraphPath with directed := false } "b" "c" :=
    ⟨⟨"c", ""⟩, by decide, rfl⟩
  exact Relation.ReflTransGen.tail (Relation.ReflTransGen.single e1) e2

/-- C3 (counterexample): on the undirected graph whose only stored link is
b→a, the ids a and b are both present, there is no directed path of stored
links from a to b, and yet `shortest_path(G,a,b)` is the nonempty path
[a, b] (the algorithm follows links both ways when `directed` is false) —
also under the abort-aware model, so the call really returns this path. -/
theorem C3_counterexample :
    mapContains exGraphRev.nodes_map "a" = true ∧
    mapContains exGraphRev.nodes_map "b" = true ∧
    ¬ LReach exGraphRev "a" "b" ∧
    dijkstra_shortest exGraphRev "a" "b" = [⟨"a", ""⟩, ⟨"b", ""⟩] ∧
    dijkstra_shortest? exGraphRev "a" "b" = some [⟨"a", ""⟩, ⟨"b", ""⟩] := by
  refine ⟨rfl, rfl, ?_, by decide, by decide⟩
  intro h
  rcases h.cases_tail with h1 | ⟨c, _, hedge⟩
  · exact absurd h1 (by decide)
  · obtain ⟨p, hp, hs, ht⟩ := hedge
    have hp2 : p ∈ [(make_link_key "b" "a", exLink "b" "a")] := hp
    rw [List.mem_singleton] at hp2
    rw [hp2] at ht
    exact absurd ht (by decide)

/-- C5 (counterexample): inserting a link from `a` to `b_c` succeeds, the
resulting graph stores no link with the ordered pair (a_b, c), and yet
inserting a link from `a_b` to `c` fails with the duplicate-link error —
so the failure condition is not "the ordered pair already has a stored
link". -/
theorem C5_counterexample :
    (Graph.new.add_link ⟨"a", "b_c", "u", 1⟩).1 = Except.ok true ∧
    ((Graph.new.add_link ⟨"a", "b_c", "u", 1⟩).2.links.all
      (fun p => !(p.2.source == "a_b" && p.2.target == "c"))) = true ∧
    ((Graph.new.add_link ⟨"a", "b_c", "u", 1⟩).2.add_link ⟨"a_b", "c", "v", 1⟩).1 =
      Except.error (dup_link_msg "a_b" "c") :=
  ⟨rfl, rfl, rfl⟩

/-- C5 (amended): `insert_link` fails with the duplicate-link error exactly
when the underscore-joined key of the new link's (source, target) pair is
already a stored link key, and succeeds exactly otherwise (so a reversed
pair succeeds exactly when its own key is not yet stored). -/
theorem C5_duplicate_link_exact_key (g : Graph) (l : Link) :
    ((g.add_link l).1 = Except.error (dup_link_msg l.source l.target) ↔
      mapContains g.links (make_link_key l.source l.target) = true) ∧
    ((g.add_link l).1 = Except.ok true ↔
      mapContains g.links (make_link_key l.source l.target) = false) := by
  rw [add_link_eq]
  have hl : (ensureNode (ensureNode g l.source) l.target).links = g.links := by
    rw [ensureNode_links, ensureNode_links]
  by_cases h : mapContains g.links (make_link_key l.source l.target)
  · simp [hl, h]
  · simp [hl, h]

/-- C6 (counterexample): the directed graph with the two stored links a→b
and b→a has a symmetric adjacency matrix while `directed = true`, so
matrix symmetry does not imply `directed = false`. -/
theorem C6_counterexample :
    exGraphCycle.directed = true ∧ matSymmB exGraphCycle.to_matrix = true :=
  ⟨rfl, rfl⟩

/-- C7: inserting a node whose id is already present fails with the
duplicate-node message and returns the graph completely unchanged. -/
theorem C7_duplicate_node_rejected (g : Graph) (n : Node)
    (h : mapContains g.nodes_map n.id = true) :
    g.add_node n = (Except.error (dup_node_msg n.id), g) := by
  simp [Graph.add_node, h]

/-- Witness for C7 at a concrete graph. -/
theorem C7_duplicate_node_rejected_witness :
    mapContains exGraphOne.nodes_map "a" = true ∧
    exGraphOne.add_node ⟨"a", "B"⟩ = (Except.error (dup_node_msg "a"), exGraphOne) :=
  ⟨rfl, C7_duplicate_node_rejected exGraphOne ⟨"a", "B"⟩ rfl⟩

/-- C8: `connected_components` on a graph with no nodes returns the empty
list, and the `directed` flag after the call always equals its value
before the call. -/
theorem C8_components_empty_and_flag (g : Graph) :
    (g.nodes = [] → (g.connected_components).1 = []) ∧
    ((g.connected_components).2).directed = g.directed := by
  unfold Graph.connected_components
  constructor
  · intro h
    simp [h]
  · by_cases h : g.nodes.length = 0 <;> simp [h]

/-- Witness for C8 at the empty graph. -/
theorem C8_components_empty_and_flag_witness :
    (Graph.new.connected_components).1 = [] ∧
    ((Graph.new.connected_components).2).directed = Graph.new.directed :=
  ⟨(C8_components_empty_and_flag Graph.new).1 rfl,
   (C8_components_empty_and_flag Graph.new).2⟩

/-! ### Lemmas about the Dijkstra entry state -/

theorem getD_mem_of_lt {l : List α} {i : Nat} {d : α} (h : i < l.length) :
    l.getD i d ∈ l := by
  induction l generalizing i with
  | nil => exact absurd h (by simp)
  | cons x t ih =>
      cases i with
      | zero => exact List.mem_cons_self _ _
      | succ j => exact List.mem_cons_of_mem _ (ih (Nat.lt_of_succ_lt_succ h))

theorem nodeAt_mem {g : Graph} {v : Nat} (h : v < g.nodes.length) :
    nodeAt g v ∈ g.nodes :=
  getD_mem_of_lt h

theorem initDist_find (l : List Node) (a k : String) :
    mapFind? (l.map fun n => (n.id, if n.id = a then D.fin 0 else D.inf)) k =
      if k ∈ l.map Node.id then some (if k = a then D.fin 0 else D.inf) else none := by
  induction l with
  | nil => simp [mapFind?]
  | cons n t ih =>
      by_cases h : n.id = k
      · subst h
        simp [mapFind?, ih]
      · simp [mapFind?, h, Ne.symm h, ih]

theorem initDist_getD (l : List Node) (a k : String) (ha : a ∈ l.map Node.id) :
    mapGetD (l.map fun n => (n.id, if n.id = a then D.fin 0 else D.inf)) k D.inf =
      if k = a then D.fin 0 else D.inf := by
  unfold mapGetD
  rw [initDist_find]
  by_cases hk : k ∈ l.map Node.id
  · simp [hk]
  · have hka : ¬ k = a := fun h => hk (h ▸ ha)
    simp [hk, hka]

theorem min_dist_foldl (dist : List (String × D)) (a : String)
    (hd : ∀ k, mapGetD dist k D.inf = if k = a then D.fin 0 else D.inf)
    (queue : List Node) :
    ∀ acc : String,
      queue.foldl
        (fun min_node node =>
          if D.lt (mapGetD dist node.id D.inf) (mapGetD dist min_node D.inf) then node.id
          else min_node) acc =
      if acc = a ∨ ∃ n ∈ queue, n.id = a then a else acc := by
  induction queue with
  | nil =>
      intro acc
      by_cases h : acc = a <;> simp [h]
  | cons n t ih =>
      intro acc
      simp only [List.foldl_cons]
      by_cases hn : n.id = a
      · have hstep : (if D.lt (mapGetD dist n.id D.inf) (mapGetD dist acc D.inf)
            then n.id else acc) = a := by
          by_cases hacc : acc = a
          · rw [hd, hd, if_pos hn, if_pos hacc]
            have h0 : D.lt (D.fin 0) (D.fin 0) = false := by decide
            rw [h0]
            simpa using hacc
          · rw [hd, hd, if_pos hn, if_neg hacc]
            have h0 : D.lt (D.fin 0) D.inf = true := by decide
            rw [h0]
            simpa using hn
        rw [hstep, ih]
        simp [hn]
      · have hstep : (if D.lt (mapGetD dist n.id D.inf) (mapGetD dist acc D.inf)
            then n.id else acc) = acc := by
          rw [hd n.id, if_neg hn]
          have h0 : ∀ x, D.lt D.inf x = false := fun x => rfl
          rw [h0]
          simp
        rw [hstep, ih]
        by_cases h2 : acc = a ∨ ∃ n2 ∈ t, n2.id = a
        · rw [if_pos h2, if_pos (by
            rcases h2 with h2 | ⟨m, hm, hma⟩
            · exact Or.inl h2
            · exact Or.inr ⟨m, List.mem_cons_of_mem _ hm, hma⟩)]
        · rw [if_neg h2, if_neg (by
            rintro (h3 | ⟨m, hm, hma⟩)
            · exact h2 (Or.inl h3)
            · rcases List.mem_cons.mp hm with rfl | hm2
              · exact hn hma
              · exact h2 (Or.inr ⟨m, hm2, hma⟩))]

theorem min_dist_node_const (queue : List Node) (dist : List (String × D)) (a : String)
    (hd : ∀ k, mapGetD dist k D.inf = if k = a then D.fin 0 else D.inf)
    (hq : ∃ n ∈ queue, n.id = a) :
    min_dist_node queue dist = a := by
  unfold min_dist_node
  rw [min_dist_foldl dist a hd queue ""]
  simp [hq]

theorem get_node_eq (g : Graph) (a : String) (v : Nat)
    (hfind : mapFind? g.nodes_map a = some v) :
    g.get_node a = some (nodeAt g v) := by
  have hc : mapContains g.nodes_map a = true := (mapContains_iff _ _).mpr ⟨v, hfind⟩
  unfold Graph.get_node nodeAt mapGetD
  rw [if_pos hc, hfind]

theorem dijkstraLoop_succ (g : Graph) (endId : String) (fuel : Nat)
    (queue : List Node) (dist : List (String × D)) (prev : List (String × String)) :
    dijkstraLoop g endId (fuel + 1) queue dist prev =
      if queue.length > 0 then
        if min_dist_node queue dist = endId then (dist, prev)
        else
          match g.get_node (min_dist_node queue dist) with
          | none => (dist, prev)
          | some n =>
            dijkstraLoop g endId fuel (queue.erase n)
              (relaxAll g (min_dist_node queue dist) (queue.erase n) (dist, prev)).1
              (relaxAll g (min_dist_node queue dist) (queue.erase n) (dist, prev)).2
      else (dist, prev) := rfl

theorem buildPath_succ (g : Graph) (start : String) (prev : List (String × String))
    (fuel : Nat) (c : String) (result : List Node) :
    buildPath g start prev (fuel + 1) c result =
      if !(mapContains prev c) && !(c == start) then result
      else
        let result1 :=
          (match g.get_node c with
           | some n => [n]
           | none => []) ++ result
        match mapFind? prev c with
        | some p => if c = start then result1 else buildPath g start prev fuel p result1
        | none => result1 := rfl

/-- C4: for every well-formed graph and every node id `a` present in it,
`shortest_path(G,a,a)` is the single-element sequence holding the stored
node with id `a`. -/
theorem C4_self_path (g : Graph) (a : String) (hwf : Wf g)
    (hc : mapContains g.nodes_map a = true) :
    ∃ n, g.get_node a = some n ∧ n.id = a ∧ dijkstra_shortest g a a = [n] := by
  obtain ⟨v, hfind⟩ := (mapContains_iff _ _).mp hc
  obtain ⟨hnodup, hidx, hmapmem, hlinks, hkeys⟩ := hwf
  obtain ⟨hvlt, hvid⟩ := hmapmem (a, v) (mem_of_mapFind? hfind)
  have hmem : nodeAt g v ∈ g.nodes := nodeAt_mem hvlt
  have ha : a ∈ g.nodes.map Node.id := List.mem_map.mpr ⟨nodeAt g v, hmem, hvid⟩
  have hd := initDist_getD g.nodes a
  refine ⟨nodeAt g v, get_node_eq g a v hfind, hvid, ?_⟩
  unfold dijkstra_shortest
  rw [if_neg (by simp [hc])]
  have hlen : 0 < g.nodes.length := Nat.lt_of_le_of_lt (Nat.zero_le v) hvlt
  have hloop :
      dijkstraLoop g a (g.nodes.length + 1) g.nodes
        (g.nodes.map fun n => (n.id, if n.id = a then D.fin 0 else D.inf)) [] =
      ((g.nodes.map fun n => (n.id, if n.id = a then D.fin 0 else D.inf)), []) := by
    rw [dijkstraLoop_succ, if_pos hlen]
    have hmin : min_dist_node g.nodes
        (g.nodes.map fun n => (n.id, if n.id = a then D.fin 0 else D.inf)) = a :=
      min_dist_node_const _ _ a (fun k => hd k ha) ⟨nodeAt g v, hmem, hvid⟩
    simp [hmin]
  simp only [hloop]
  rw [buildPath_succ]
  rw [if_neg (by simp [mapContains])]
  rw [get_node_eq g a v hfind]
  simp [mapFind?]

/-- Witness for C4 at a concrete one-node graph. -/
theorem C4_self_path_witness :
    Wf exGraphOne ∧ mapContains exGraphOne.nodes_map "a" = true ∧
    ∃ n, exGraphOne.get_node "a" = some n ∧ n.id = "a" ∧
      dijkstra_shortest exGraphOne "a" "a" = [n] :=
  ⟨by decide, rfl, C4_self_path exGraphOne "a" (by decide) rfl⟩

/-! ### Preservation of the graph invariants -/

theorem add_node_of_contains (g : Graph) (n : Node)
    (h : mapContains g.nodes_map n.id = true) :
    g.add_node n = (Except.error (dup_node_msg n.id), g) := by
  simp [Graph.add_node, h]

theorem mem_keys_contains {m : List (String × α)} {k : String}
    (hk : k ∈ m.map Prod.fst) : mapContains m k = true := by
  obtain ⟨p, hp, hpk⟩ := List.mem_map.mp hk
  unfold mapContains
  rw [List.any_eq_true]
  refine ⟨p, hp, ?_⟩
  rw [hpk]
  simp

theorem mapContains_not_mem_keys {m : List (String × α)} {k : String}
    (h : mapContains m k = false) : k ∉ m.map Prod.fst := by
  intro hk
  rw [mem_keys_contains hk] at h
  exact absurd h (by simp)

theorem mem_ids_of_contains {g : Graph}
    (hmapmem : ∀ p ∈ g.nodes_map, p.2 < g.nodes.length ∧ (nodeAt g p.2).id = p.1)
    {k : String} (hc : mapContains g.nodes_map k = true) :
    k ∈ g.nodes.map Node.id := by
  obtain ⟨v, hv⟩ := (mapContains_iff _ _).mp hc
  obtain ⟨hlt, hid⟩ := hmapmem (k, v) (mem_of_mapFind? hv)
  exact List.mem_map.mpr ⟨nodeAt g v, nodeAt_mem hlt, hid⟩

theorem contains_of_mem_ids {g : Graph}
    (hidx : ∀ i ∈ List.range g.nodes.length,
      mapFind? g.nodes_map (nodeAt g i).id = some i)
    {k : String} (hk : k ∈ g.nodes.map Node.id) :
    mapContains g.nodes_map k = true := by
  obtain ⟨node, hmem, hid⟩ := List.mem_map.mp hk
  obtain ⟨i, hlt, hget⟩ := List.getElem_of_mem hmem
  have hnode : nodeAt g i = node := by
    unfold nodeAt
    rw [List.getD_eq_getElem _ _ hlt]
    exact hget
  refine (mapContains_iff _ _).mpr ⟨i, ?_⟩
  have h2 := hidx i (List.mem_range.mpr hlt)
  rw [hnode, hid] at h2
  exact h2

theorem contains_mapInsert_mono {m : List (String × α)} {k k2 : String} {v : α}
    (h : mapContains m k = true) : mapContains (mapInsert m k2 v) k = true := by
  rw [mapContains_mapInsert]
  by_cases h2 : k = k2 <;> simp [h2, h]

theorem wf_push_node {g : Graph} (hwf : Wf g) (n : Node)
    (hc : mapContains g.nodes_map n.id = false) :
    Wf { g with
      nodes_map := mapInsert g.nodes_map n.id g.nodes.length
      nodes := g.nodes ++ [n] } := by
  obtain ⟨hnodup, hidx, hmapmem, hlinks, hkeys⟩ := hwf
  have hmap2 : mapInsert g.nodes_map n.id g.nodes.length =
      g.nodes_map ++ [(n.id, g.nodes.length)] := mapInsert_eq_append _ _ _ hc
  have hnid : n.id ∉ g.nodes.map Node.id := by
    intro hmem
    rw [contains_of_mem_ids hidx hmem] at hc
    exact absurd hc (by simp)
  refine ⟨?_, ?_, ?_, ?_, hkeys⟩
  · rw [show ({ g with
        nodes_map := mapInsert g.nodes_map n.id g.nodes.length
        nodes := g.nodes ++ [n] } : Graph).nodes = g.nodes ++ [n] from rfl]
    rw [List.map_append, List.nodup_append]
    refine ⟨hnodup, List.nodup_singleton _, ?_⟩
    intro x hx hx2
    rw [List.map_singleton, List.mem_singleton] at hx2
    subst hx2
    exact hnid hx
  · intro i hi
    rw [List.mem_range] at hi
    have hlen : ({ g with
        nodes_map := mapInsert g.nodes_map n.id g.nodes.length
        nodes := g.nodes ++ [n] } : Graph).nodes.length = g.nodes.length + 1 := by
      simp
    rw [hlen] at hi
    rcases Nat.lt_succ_iff_lt_or_eq.mp hi with hlt | heq
    · have hnode : nodeAt { g with
          nodes_map := mapInsert g.nodes_map n.id g.nodes.length
          nodes := g.nodes ++ [n] } i = nodeAt g i := by
        unfold nodeAt
        exact List.getD_append _ _ _ i hlt
      rw [hnode, hmap2, mapFind?_append, hidx i (List.mem_range.mpr hlt)]
    · subst heq
      have hnode : nodeAt { g with
          nodes_map := mapInsert g.nodes_map n.id g.nodes.length
          nodes := g.nodes ++ [n] } g.nodes.length = n := by
        unfold nodeAt
        rw [List.getD_append_right _ _ _ _ (Nat.le_refl _), Nat.sub_self]
        rfl
      rw [hnode, hmap2, mapFind?_append,
        (mapContains_false_iff _ _).mp hc]
      simp [mapFind?]
  · intro p hp
    rw [show ({ g with
        nodes_map := mapInsert g.nodes_map n.id g.nodes.length
        nodes := g.nodes ++ [n] } : Graph).nodes_map =
      g.nodes_map ++ [(n.id, g.nodes.length)] from hmap2] at hp
    rcases List.mem_append.mp hp with hp1 | hp2
    · obtain ⟨hlt, hid⟩ := hmapmem p hp1
      refine ⟨by simp; omega, ?_⟩
      have hnode : nodeAt { g with
          nodes_map := mapInsert g.nodes_map n.id g.nodes.length
          nodes := g.nodes ++ [n] } p.2 = nodeAt g p.2 := by
        unfold nodeAt
        exact List.getD_append _ _ _ p.2 hlt
      rw [hnode]
      exact hid
    · rw [List.mem_singleton] at hp2
      subst hp2
      refine ⟨by simp, ?_⟩
      unfold nodeAt
      rw [List.getD_append_right _ _ _ _ (Nat.le_refl _), Nat.sub_self]
      rfl
  · intro p hp
    obtain ⟨hs, ht, hkey⟩ := hlinks p hp
    exact ⟨contains_mapInsert_mono hs, contains_mapInsert_mono ht, hkey⟩

theorem wf_add_node (g : Graph) (n : Node) (hwf : Wf g) : Wf (g.add_node n).2 := by
  cases hc : mapContains g.nodes_map n.id with
  | true =>
      rw [add_node_of_contains g n hc]
      exact hwf
  | false =>
      rw [add_node_of_not_contains g n hc]
      exact wf_push_node hwf n hc

theorem wf_ensureNode {g : Graph} (hwf : Wf g) (id : String) : Wf (ensureNode g id) := by
  unfold ensureNode
  by_cases hc : mapContains g.nodes_map id = true
  · rwa [if_pos hc]
  · rw [if_neg hc, Bool.not_eq_true] at *
    exact wf_push_node hwf ⟨id, ""⟩ hc

theorem wf_add_link (g : Graph) (l : Link) (hwf : Wf g) : Wf (g.add_link l).2 := by
  rw [add_link_eq]
  have hwf2 : Wf (ensureNode (ensureNode g l.source) l.target) :=
    wf_ensureNode (wf_ensureNode hwf l.source) l.target
  by_cases hk : mapContains (ensureNode (ensureNode g l.source) l.target).links
      (make_link_key l.source l.target) = true
  · rw [if_pos hk]
    exact hwf2
  · rw [if_neg hk]
    rw [Bool.not_eq_true] at hk
    obtain ⟨hnodup, hidx, hmapmem, hlinks, hkeys⟩ := hwf2
    have happ : mapInsert (ensureNode (ensureNode g l.source) l.target).links
        (make_link_key l.source l.target) l =
        (ensureNode (ensureNode g l.source) l.target).links ++
          [(make_link_key l.source l.target, l)] :=
      mapInsert_eq_append _ _ _ hk
    refine ⟨hnodup, hidx, hmapmem, ?_, ?_⟩
    · intro p hp
      rw [show ({ ensureNode (ensureNode g l.source) l.target with
          links := mapInsert (ensureNode (ensureNode g l.source) l.target).links
            (make_link_key l.source l.target) l } : Graph).links =
        (ensureNode (ensureNode g l.source) l.target).links ++
          [(make_link_key l.source l.target, l)] from happ] at hp
      rcases List.mem_append.mp hp with hp1 | hp2
      · exact hlinks p hp1
      · rw [List.mem_singleton] at hp2
        subst hp2
        refine ⟨?_, ensureNode_contains_self _ _, rfl⟩
        exact ensureNode_contains_mono _ _ _ (ensureNode_contains_self _ _)
    · rw [show ({ ensureNode (ensureNode g l.source) l.target with
          links := mapInsert (ensureNode (ensureNode g l.source) l.target).links
            (make_link_key l.source l.target) l } : Graph).links =
        (ensureNode (ensureNode g l.source) l.target).links ++
          [(make_link_key l.source l.target, l)] from happ]
      rw [List.map_append, List.nodup_append]
      refine ⟨hkeys, List.nodup_singleton _, ?_⟩
      intro x hx hx2
      rw [List.map_singleton, List.mem_singleton] at hx2
      subst hx2
      exact (mapContains_not_mem_keys hk) hx

theorem wf_applyOp (g : Graph) (op : Op) (hwf : Wf g) : Wf (applyOp g op) := by
  cases op with
  | insertNode n => exact wf_add_node g n hwf
  | insertLink l => exact wf_add_link g l hwf

theorem wf_foldl (ops : List Op) : ∀ g, Wf g → Wf (ops.foldl applyOp g) := by
  induction ops with
  | nil =>
      intro g hwf
      exact hwf
  | cons op rest ih =>
      intro g hwf
      exact ih _ (wf_applyOp g op hwf)

/-- C9: after any sequence of insert_node / insert_link calls starting from
the empty graph, the node ids are pairwise distinct, the id-to-index map
sends each stored node's id to its position, every stored link's endpoints
are present in the node collection, and no two stored links share the same
(source, target) pair. -/
theorem C9_insert_invariants (ops : List Op) :
    ((ops.foldl applyOp Graph.new).nodes.map Node.id).Nodup ∧
    (∀ i ∈ List.range (ops.foldl applyOp Graph.new).nodes.length,
      mapFind? (ops.foldl applyOp Graph.new).nodes_map
        (nodeAt (ops.foldl applyOp Graph.new) i).id = some i) ∧
    (∀ p ∈ (ops.foldl applyOp Graph.new).links,
      p.2.source ∈ (ops.foldl applyOp Graph.new).nodes.map Node.id ∧
      p.2.target ∈ (ops.foldl applyOp Graph.new).nodes.map Node.id) ∧
    (ops.foldl applyOp Graph.new).links.Pairwise
      (fun p q => ¬(p.2.source = q.2.source ∧ p.2.target = q.2.target)) := by
  obtain ⟨hnodup, hidx, hmapmem, hlinks, hkeys⟩ := wf_foldl ops Graph.new (by decide)
  refine ⟨hnodup, hidx, ?_, ?_⟩
  · intro p hp
    obtain ⟨hs, ht, _⟩ := hlinks p hp
    exact ⟨mem_ids_of_contains hmapmem hs, mem_ids_of_contains hmapmem ht⟩
  · have hpw : (ops.foldl applyOp Graph.new).links.Pairwise
        (fun p q => p.1 ≠ q.1) := List.pairwise_map.mp hkeys
    refine List.Pairwise.imp_of_mem ?_ hpw
    intro p q hp hq hne hpair
    obtain ⟨_, _, hkp⟩ := hlinks p hp
    obtain ⟨_, _, hkq⟩ := hlinks q hq
    apply hne
    rw [hkp, hkq, hpair.1, hpair.2]

/-! ### The Dijkstra reachability invariant -/

theorem lt_fin {x y : D} (h : D.lt x y = true) : ∃ q, x = D.fin q := by
  cases x with
  | fin q => exact ⟨q, rfl⟩
  | inf => exact absurd h (by simp [D.lt])

theorem reach_of_relax {g : Graph} {start min_node : String}
    {dist : List (String × D)}
    (hinv : ∀ k q, mapFind? dist k = some (D.fin q) → Reach g start k)
    {w : F} {n : Node} (hmem : n ∈ g.direct_connected min_node)
    (hlt : D.lt ((mapGetD dist min_node D.inf).addF w)
      (mapGetD dist n.id D.inf) = true) :
    Reach g start n.id := by
  have hreach_min : Reach g start min_node := by
    cases hx : mapGetD dist min_node D.inf with
    | inf =>
        rw [hx] at hlt
        exact absurd hlt (by simp [D.addF, D.lt])
    | fin qm =>
        unfold mapGetD at hx
        cases hfind : mapFind? dist min_node with
        | none =>
            rw [hfind] at hx
            exact absurd hx (by simp)
        | some d =>
            rw [hfind] at hx
            simp only at hx
            rw [hx] at hfind
            exact hinv min_node qm hfind
  exact Relation.ReflTransGen.tail hreach_min ⟨n, hmem, rfl⟩

theorem inv_insert {g : Graph} {start : String} {dist : List (String × D)}
    {prev : List (String × String)} (h : ReachInv g start dist prev)
    {nid : String} (hr : Reach g start nid) (alt : D) (pv : String) :
    ReachInv g start (mapInsert dist nid alt) (mapInsert prev nid pv) := by
  constructor
  · intro k q hk
    rw [mapFind?_mapInsert] at hk
    by_cases hkn : k = nid
    · rw [hkn]
      exact hr
    · rw [if_neg hkn] at hk
      exact h.1 k q hk
  · intro k p hk
    rw [mapFind?_mapInsert] at hk
    by_cases hkn : k = nid
    · rw [hkn]
      exact hr
    · rw [if_neg hkn] at hk
      exact h.2 k p hk

theorem relaxStep?_inv {g : Graph} {start min_node : String} {queue : List Node}
    {dp dp2 : List (String × D) × List (String × String)} (n : Node)
    (hmem : n ∈ g.direct_connected min_node)
    (h : ReachInv g start dp.1 dp.2)
    (hstep : relaxStep? g min_node queue dp n = some dp2) :
    ReachInv g start dp2.1 dp2.2 := by
  by_cases hq : queue.contains n = true
  · cases hw : relaxWeight? g min_node n with
    | none =>
        have e : relaxStep? g min_node queue dp n = none := by
          unfold relaxStep?
          rw [if_pos hq, hw]
        rw [e] at hstep
        exact Option.noConfusion hstep
    | some w =>
        have e : relaxStep? g min_node queue dp n =
            if D.lt ((mapGetD dp.1 min_node D.inf).addF w) (mapGetD dp.1 n.id D.inf) then
              some (mapInsert dp.1 n.id ((mapGetD dp.1 min_node D.inf).addF w),
                mapInsert dp.2 n.id min_node)
            else some dp := by
          unfold relaxStep?
          rw [if_pos hq, hw]
        rw [e] at hstep
        by_cases hlt : D.lt ((mapGetD dp.1 min_node D.inf).addF w)
            (mapGetD dp.1 n.id D.inf) = true
        · rw [if_pos hlt] at hstep
          injection hstep with h2
          rw [← h2]
          exact inv_insert h (reach_of_relax h.1 hmem hlt) _ _
        · rw [if_neg hlt] at hstep
          injection hstep with h2
          rw [← h2]
          exact h
  · have e : relaxStep? g min_node queue dp n = some dp := by
      unfold relaxStep?
      rw [if_neg hq]
    rw [e] at hstep
    injection hstep with h2
    rw [← h2]
    exact h

theorem relaxFold?_inv {g : Graph} {start min_node : String} {queue : List Node} :
    ∀ (ns : List Node), (∀ x ∈ ns, x ∈ g.direct_connected min_node) →
    ∀ dp dp2 : List (String × D) × List (String × String),
      ReachInv g start dp.1 dp.2 →
      relaxFold? g min_node queue ns dp = some dp2 →
      ReachInv g start dp2.1 dp2.2 := by
  intro ns
  induction ns with
  | nil =>
      intro _ dp dp2 h heq
      unfold relaxFold? at heq
      injection heq with h2
      rw [← h2]
      exact h
  | cons x t ih =>
      intro hmem dp dp2 h heq
      unfold relaxFold? at heq
      cases hs : relaxStep? g min_node queue dp x with
      | none =>
          rw [hs] at heq
          exact Option.noConfusion heq
      | some dpm =>
          rw [hs] at heq
          exact ih (fun y hy => hmem y (List.mem_cons_of_mem _ hy)) dpm dp2
            (relaxStep?_inv x (hmem x (List.mem_cons_self _ _)) h hs) heq

theorem relaxAll?_inv {g : Graph} {start min_node : String} {queue : List Node}
    {dp dp2 : List (String × D) × List (String × String)}
    (h : ReachInv g start dp.1 dp.2)
    (heq : relaxAll? g min_node queue dp = some dp2) :
    ReachInv g start dp2.1 dp2.2 :=
  relaxFold?_inv _ (fun _ hx => hx) dp dp2 h heq

theorem dijkstraLoop?_succ (g : Graph) (endId : String) (fuel : Nat)
    (queue : List Node) (dist : List (String × D)) (prev : List (String × String)) :
    dijkstraLoop? g endId (fuel + 1) queue dist prev =
      if queue.length > 0 then
        if min_dist_node queue dist = endId then some (dist, prev)
        else
          match g.get_node (min_dist_node queue dist) with
          | none => some (dist, prev)
          | some n =>
            match relaxAll? g (min_dist_node queue dist) (queue.erase n) (dist, prev) with
            | none => none
            | some dp => dijkstraLoop? g endId fuel (queue.erase n) dp.1 dp.2
      else some (dist, prev) := rfl

theorem buildPath?_succ (g : Graph) (start : String) (prev : List (String × String))
    (fuel : Nat) (c : String) (result : List Node) :
    buildPath? g start prev (fuel + 1) c result =
      if !(mapContains prev c) && !(c == start) then some result
      else
        match g.get_node c with
        | none => none
        | some n =>
          match mapFind? prev c with
          | some p =>
              if c = start then some ([n] ++ result)
              else buildPath? g start prev fuel p ([n] ++ result)
          | none => some ([n] ++ result) := rfl

theorem dijkstraLoop?_inv (g : Graph) (endId start : String) :
    ∀ (fuel : Nat) (queue : List Node) (dist : List (String × D))
      (prev : List (String × String))
      (dp : List (String × D) × List (String × String)),
      ReachInv g start dist prev →
      dijkstraLoop? g endId fuel queue dist prev = some dp →
      ReachInv g start dp.1 dp.2 := by
  intro fuel
  induction fuel with
  | zero =>
      intro queue dist prev dp h heq
      exact Option.noConfusion heq
  | succ fuel ih =>
      intro queue dist prev dp h heq
      rw [dijkstraLoop?_succ] at heq
      by_cases hq : queue.length > 0
      · rw [if_pos hq] at heq
        by_cases hmin : min_dist_node queue dist = endId
        · rw [if_pos hmin] at heq
          injection heq with h2
          rw [← h2]
          exact h
        · rw [if_neg hmin] at heq
          split at heq
          · injection heq with h2
            rw [← h2]
            exact h
          · split at heq
            · exact Option.noConfusion heq
            · rename_i dpm hr
              exact ih _ _ _ _ (relaxAll?_inv h hr) heq
      · rw [if_neg hq] at heq
        injection heq with h2
        rw [← h2]
        exact h

theorem initDist_inv (g : Graph) (a : String) :
    ReachInv g a (g.nodes.map fun n => (n.id, if n.id = a then D.fin 0 else D.inf)) [] := by
  constructor
  · intro k q hk
    rw [initDist_find] at hk
    by_cases hmem : k ∈ g.nodes.map Node.id
    · rw [if_pos hmem] at hk
      by_cases hka : k = a
      · rw [hka]
        exact Relation.ReflTransGen.refl
      · rw [if_neg hka] at hk
        exact absurd hk (by simp)
    · rw [if_neg hmem] at hk
      exact absurd hk (by simp)
  · intro k p hk
    exact absurd hk (by simp [mapFind?])

/-- C3 (amended): for every graph and node ids a, b — if a or b is absent
from the node index, or no path from a to b exists along the graph's
adjacency view (stored link direction, both directions when `directed` is
false), then `shortest_path(G,a,b)` cannot yield a nonempty path: every
value the call returns is the empty sequence.  (On weighted graphs the
relaxation's `unwrap` can abort the call, and on pathological inputs the
loop need not terminate; those executions return nothing and are the
`none` results of the abort-aware model.) -/
theorem C3_no_view_path_empty (g : Graph) (a b : String) (l : List Node)
    (h : mapContains g.nodes_map a = false ∨ mapContains g.nodes_map b = false ∨
      ¬ Reach g a b)
    (hret : dijkstra_shortest? g a b = some l) :
    l = [] := by
  unfold dijkstra_shortest? at hret
  cases hca : mapContains g.nodes_map a with
  | false =>
      rw [hca] at hret
      simp only [Bool.not_false, Bool.true_or, if_true] at hret
      injection hret with h2
      exact h2.symm
  | true =>
      cases hcb : mapContains g.nodes_map b with
      | false =>
          rw [hca, hcb] at hret
          simp only [Bool.not_false, Bool.not_true, Bool.false_or, if_true] at hret
          injection hret with h2
          exact h2.symm
      | true =>
          rw [hca, hcb, if_neg (by simp)] at hret
          have hnr : ¬ Reach g a b := by
            rcases h with h | h | h
            · rw [hca] at h
              exact absurd h (by simp)
            · rw [hcb] at h
              exact absurd h (by simp)
            · exact h
          have hba : ¬ (b = a) := by
            intro he
            rw [he] at hnr
            exact hnr Relation.ReflTransGen.refl
          split at hret
          · exact Option.noConfusion hret
          · rename_i dp hloop
            have hinv := dijkstraLoop?_inv g b a (g.nodes.length + 1) g.nodes
              (g.nodes.map fun n => (n.id, if n.id = a then D.fin 0 else D.inf)) [] dp
              (initDist_inv g a) hloop
            have hpm : mapFind? dp.2 b = none := by
              cases hf : mapFind? dp.2 b with
              | none => rfl
              | some p => exact absurd (hinv.2 b p hf) hnr
            rw [buildPath?_succ] at hret
            rw [if_pos (by
              rw [(mapContains_false_iff _ _).mpr hpm]
              simp [hba])] at hret
            injection hret with h2
            exact h2.symm

/-- Witness for C3 (amended) at a graph with two isolated nodes. -/
theorem C3_no_view_path_empty_witness :
    ¬ Reach exGraphIso "a" "b" ∧
    dijkstra_shortest? exGraphIso "a" "b" = some [] ∧
    ([] : List Node) = [] := by
  have hdc : ∀ x, exGraphIso.direct_connected x = [] := by
    intro x
    by_cases hc : mapContains exGraphIso.nodes_map x = true
    · obtain ⟨v, hv⟩ := (mapContains_iff _ _).mp hc
      have hmem : (x, v) ∈ [("a", 0), ("b", 1)] := mem_of_mapFind? hv
      simp only [List.mem_cons, List.mem_singleton, Prod.mk.injEq] at hmem
      rcases hmem with ⟨h1, _⟩ | ⟨h1, _⟩ | hfalse
      · rw [h1]
        decide
      · rw [h1]
        decide
      · exact absurd hfalse (List.not_mem_nil _)
    · rw [Bool.not_eq_true] at hc
      simp [Graph.direct_connected, hc]
  have hnr : ¬ Reach exGraphIso "a" "b" := by
    intro h
    rcases h.cases_tail with h1 | ⟨c, _, he⟩
    · exact absurd h1 (by decide)
    · obtain ⟨n, hn, _⟩ := he
      rw [hdc] at hn
      exact absurd hn (List.not_mem_nil n)
  exact ⟨hnr, rfl,
    C3_no_view_path_empty exGraphIso "a" "b" [] (Or.inr (Or.inr hnr)) rfl⟩

/-! ### Symmetry of the undirected adjacency matrix -/

theorem getD_replicate {x d : α} : ∀ (n i : Nat),
    (List.replicate n x).getD i d = if i < n then x else d := by
  intro n
  induction n with
  | zero =>
      intro i
      simp
  | succ m ih =>
      intro i
      cases i with
      | zero => simp [List.replicate]
      | succ j =>
          show (List.replicate m x).getD j d = _
          rw [ih j]
          by_cases h : j < m <;> simp [h, Nat.succ_lt_succ_iff]

theorem getD_set_self {l : List α} {i : Nat} {x d : α} (h : i < l.length) :
    (l.set i x).getD i d = x := by
  induction l generalizing i with
  | nil => exact absurd h (by simp)
  | cons a t ih =>
      cases i with
      | zero => rfl
      | succ j => exact ih (Nat.lt_of_succ_lt_succ h)

theorem getD_set_ne {l : List α} {i j : Nat} {x d : α} (h : ¬ j = i) :
    (l.set i x).getD j d = l.getD j d := by
  induction l generalizing i j with
  | nil => rfl
  | cons a t ih =>
      cases i with
      | zero =>
          cases j with
          | zero => exact absurd rfl h
          | succ k => rfl
      | succ i2 =>
          cases j with
          | zero => rfl
          | succ k => exact ih (fun he => h (by rw [he]))

theorem entry_setEntry (m : List (List Bool)) (i j a b : Nat)
    (hi : i < m.length) (hj : j < (m.getD i []).length) :
    entry (setEntry m i j) a b =
      if a = i ∧ b = j then true else entry m a b := by
  unfold entry setEntry
  by_cases ha : a = i
  · rw [ha, getD_set_self hi]
    by_cases hb : b = j
    · rw [hb, getD_set_self hj, if_pos ⟨rfl, rfl⟩]
    · rw [getD_set_ne hb, if_neg (fun hc => hb hc.2)]
  · rw [getD_set_ne ha, if_neg (fun hc => ha hc.1)]

theorem length_setEntry (m : List (List Bool)) (i j : Nat) :
    (setEntry m i j).length = m.length := by
  unfold setEntry
  exact List.length_set _ _ _

theorem rows_setEntry {m : List (List Bool)} {N : Nat} {i j : Nat}
    (hrows : ∀ r ∈ m, r.length = N) (hlen : m.length = N) (hi : i < N) :
    ∀ r ∈ setEntry m i j, r.length = N := by
  intro r hr
  unfold setEntry at hr
  rcases List.mem_or_eq_of_mem_set hr with h1 | h1
  · exact hrows r h1
  · rw [h1, List.length_set]
    exact hrows _ (getD_mem_of_lt (by rw [hlen]; exact hi))

theorem entry_replicate (N a b : Nat) :
    entry (List.replicate N (List.replicate N false)) a b = false := by
  unfold entry
  rw [getD_replicate]
  by_cases h : a < N
  · rw [if_pos h, getD_replicate]
    by_cases h2 : b < N <;> simp [h2]
  · rw [if_neg h]
    rfl

theorem symm_setEntry2 {m : List (List Bool)} {N si ti : Nat}
    (hlen : m.length = N) (hrows : ∀ r ∈ m, r.length = N)
    (hsi : si < N) (hti : ti < N)
    (hsym : ∀ a b, entry m a b = entry m b a) :
    ∀ a b, entry (setEntry (setEntry m si ti) ti si) a b =
      entry (setEntry (setEntry m si ti) ti si) b a := by
  intro a b
  have hm1len : (setEntry m si ti).length = N := by rw [length_setEntry, hlen]
  have hm1rows : ∀ r ∈ setEntry m si ti, r.length = N := rows_setEntry hrows hlen hsi
  have hrowlen : ∀ x : Nat, x < N → (m.getD x []).length = N := fun x hx =>
    hrows _ (getD_mem_of_lt (by rw [hlen]; exact hx))
  have hrowlen1 : ∀ x : Nat, x < N → ((setEntry m si ti).getD x []).length = N :=
    fun x hx => hm1rows _ (getD_mem_of_lt (by rw [hm1len]; exact hx))
  have e_out : ∀ c d : Nat, entry (setEntry (setEntry m si ti) ti si) c d =
      if c = ti ∧ d = si then true else entry (setEntry m si ti) c d := fun c d =>
    entry_setEntry _ ti si c d (by rw [hm1len]; exact hti)
      (by rw [hrowlen1 ti hti]; exact hsi)
  have e_in : ∀ c d : Nat, entry (setEntry m si ti) c d =
      if c = si ∧ d = ti then true else entry m c d := fun c d =>
    entry_setEntry _ si ti c d (by rw [hlen]; exact hsi)
      (by rw [hrowlen si hsi]; exact hti)
  rw [e_out, e_out, e_in, e_in]
  split_ifs <;> first | rfl | exact hsym a b | tauto

theorem idx_lt_of_contains {g : Graph}
    (hmapmem : ∀ p ∈ g.nodes_map, p.2 < g.nodes.length ∧ (nodeAt g p.2).id = p.1)
    {k : String} (hc : mapContains g.nodes_map k = true) :
    mapGetD g.nodes_map k 0 < g.nodes.length := by
  obtain ⟨v, hv⟩ := (mapContains_iff _ _).mp hc
  unfold mapGetD
  rw [hv]
  exact (hmapmem (k, v) (mem_of_mapFind? hv)).1

theorem matrix_fold_symm (g : Graph)
    (hmapmem : ∀ p ∈ g.nodes_map, p.2 < g.nodes.length ∧ (nodeAt g p.2).id = p.1) :
    ∀ ls : List (String × Link),
      (∀ p ∈ ls, mapContains g.nodes_map p.2.source = true ∧
        mapContains g.nodes_map p.2.target = true) →
      ∀ m : List (List Bool), m.length = g.nodes.length →
        (∀ r ∈ m, r.length = g.nodes.length) →
        (∀ a b, entry m a b = entry m b a) →
        (ls.foldl (fun rows p =>
            setEntry (setEntry rows (mapGetD g.nodes_map p.2.source 0)
              (mapGetD g.nodes_map p.2.target 0))
              (mapGetD g.nodes_map p.2.target 0) (mapGetD g.nodes_map p.2.source 0)) m).length
          = g.nodes.length ∧
        (∀ r ∈ ls.foldl (fun rows p =>
            setEntry (setEntry rows (mapGetD g.nodes_map p.2.source 0)
              (mapGetD g.nodes_map p.2.target 0))
              (mapGetD g.nodes_map p.2.target 0) (mapGetD g.nodes_map p.2.source 0)) m,
          r.length = g.nodes.length) ∧
        (∀ a b, entry (ls.foldl (fun rows p =>
            setEntry (setEntry rows (mapGetD g.nodes_map p.2.source 0)
              (mapGetD g.nodes_map p.2.target 0))
              (mapGetD g.nodes_map p.2.target 0) (mapGetD g.nodes_map p.2.source 0)) m) a b =
          entry (ls.foldl (fun rows p =>
            setEntry (setEntry rows (mapGetD g.nodes_map p.2.source 0)
              (mapGetD g.nodes_map p.2.target 0))
              (mapGetD g.nodes_map p.2.target 0) (mapGetD g.nodes_map p.2.source 0)) m) b a) := by
  intro ls
  induction ls with
  | nil =>
      intro _ m h1 h2 h3
      exact ⟨h1, h2, h3⟩
  | cons p t ih =>
      intro hall m h1 h2 h3
      simp only [List.foldl_cons]
      have hsi : mapGetD g.nodes_map p.2.source 0 < g.nodes.length :=
        idx_lt_of_contains hmapmem (hall p (List.mem_cons_self _ _)).1
      have hti : mapGetD g.nodes_map p.2.target 0 < g.nodes.length :=
        idx_lt_of_contains hmapmem (hall p (List.mem_cons_self _ _)).2
      have hm1len : (setEntry m (mapGetD g.nodes_map p.2.source 0)
          (mapGetD g.nodes_map p.2.target 0)).length = g.nodes.length := by
        rw [length_setEntry, h1]
      refine ih (fun q hq => hall q (List.mem_cons_of_mem _ hq)) _ ?_ ?_ ?_
      · rw [length_setEntry, hm1len]
      · exact rows_setEntry (rows_setEntry h2 h1 hsi) hm1len hti
      · exact symm_setEntry2 h1 h2 hsi hti h3

/-- C6 (amended): for every well-formed graph whose `directed` flag is
false, the matrix returned by `to_matrix` is symmetric. -/
theorem C6_undirected_matrix_symmetric (g : Graph) (hwf : Wf g)
    (hdir : g.directed = false) : matSymmB g.to_matrix = true := by
  obtain ⟨hnodup, hidx, hmapmem, hlinks, hkeys⟩ := hwf
  have hsym : ∀ a b, entry g.to_matrix a b = entry g.to_matrix b a := by
    unfold Graph.to_matrix
    simp only [hdir, Bool.not_false, if_true]
    exact (matrix_fold_symm g hmapmem g.links
      (fun p hp => ⟨(hlinks p hp).1, (hlinks p hp).2.1⟩)
      (List.replicate g.nodes.length (List.replicate g.nodes.length false))
      (by simp)
      (by
        intro r hr
        rw [List.eq_of_mem_replicate hr]
        simp)
      (fun a b => by rw [entry_replicate, entry_replicate])).2.2
  unfold matSymmB
  rw [List.all_eq_true]
  intro i hi
  rw [List.all_eq_true]
  intro j hj
  rw [hsym i j]
  simp

/-- Witness for C6 (amended) at a concrete undirected one-link graph. -/
theorem C6_undirected_matrix_symmetric_witness :
    Wf exGraphUndirPair ∧ exGraphUndirPair.directed = false ∧
    matSymmB exGraphUndirPair.to_matrix = true :=
  ⟨by decide, rfl, C6_undirected_matrix_symmetric exGraphUndirPair (by decide) rfl⟩

end RustG
